import Mathlib

/-!
Verification of the Virgo data-reduction pipeline (src/virgo/virgo.py,
function `plot` and its local helpers `shift` and `SNR`).

Shallow embedding conventions:
* A raw recording is a flat list of rationals (the little-endian float32
  samples of the binary file, modelled exactly as rationals).
* A loaded waterfall is a list of rows (integrations), each row a list of
  `Option ℚ` channel samples; `none` is the no-value marker standing for
  numpy NaN (and, at the single point where the source divides by a zero
  bin count, for the non-finite result of that division).
* Python `int(x)` truncates toward zero; it is embedded as `pyInt`.
* numpy `nanmean`/`nanmedian` ignore `none` entries and return `none`
  (NaN) when no value remains.
* The SNR helper works on real numbers because `np.nanstd` takes a square
  root; division is Lean's total division, and every theorem about it
  carries the `noise ≠ 0` hypothesis under which the embedding agrees
  with the source (in the source, dividing by a zero noise estimate
  produces non-finite values instead).
-/

namespace Virgo

/-- Python `int()` applied to a rational: truncation toward zero. -/
def pyInt (q : ℚ) : ℤ :=
  if 0 ≤ q then ⌊q⌋ else ⌈q⌉

/-- The `offset` constant of `plot` (source line `offset = 1`). -/
def offset : ℚ := 1

/-- Source line `bins = int(t_sample*bandwidth/channels)`. -/
def bins (t_sample bandwidth : ℚ) (channels : ℕ) : ℤ :=
  pyInt (t_sample * bandwidth / channels)

/-- Reshape of the flat sample list into rows of `channels` samples:
`np.fromfile(...).reshape(-1, channels)` keeps `length / channels` full
rows (numpy additionally requires exact divisibility, which the caller
`load` checks). -/
def toRows (raw : List ℚ) (channels : ℕ) : List (List ℚ) :=
  (List.range (raw.length / channels)).map
    (fun i => (raw.drop (i * channels)).take channels)

/-- One raw sample normalised as in
`offset*np.fromfile(obs_file, dtype='float32').reshape(-1, channels)/bins`:
division by a zero `bins` is a numpy divide-by-zero producing a
non-finite value, embedded as the no-value marker. -/
def normSample (b : ℤ) (x : ℚ) : Option ℚ :=
  if b = 0 then none else some (offset * x / (b : ℚ))

/-- The frame loader: reshape, normalise by `bins`, and drop the first
3 rows (`waterfall = waterfall[3:, :]`). `none` is the reshape failure
(`reshape(-1, channels)` raises when the sample count is not a multiple
of `channels`); no other failure path exists in the source. -/
def load (raw : List ℚ) (channels : ℕ) (t_sample bandwidth : ℚ) :
    Option (List (List (Option ℚ))) :=
  if 0 < channels ∧ channels ∣ raw.length then
    some ((((toRows raw channels).map
      (List.map (normSample (bins t_sample bandwidth channels)))).drop 3))
  else none

/-- nanmean of a list of optional values: numpy `np.nanmean`, ignoring
the no-value marker and returning the marker for an empty slice. -/
def nanmean (xs : List (Option ℚ)) : Option ℚ :=
  let v := xs.filterMap id
  if v.length = 0 then none else some (v.sum / (v.length : ℚ))

/-- Entry `(i, j)` of a waterfall (row `i`, channel `j`). -/
def entry (w : List (List (Option ℚ))) (i j : ℕ) : Option ℚ :=
  (w.getD i []).getD j none

/-- Source line `avg_spectrum = np.nanmean(waterfall, axis=0)` (the
decibel transform is the identity in linear mode): one nanmean per
channel column. -/
def avgSpectrum (w : List (List (Option ℚ))) (channels : ℕ) :
    List (Option ℚ) :=
  (List.range channels).map (fun j => nanmean (w.map (fun r => r.getD j none)))

/-- Source line `rfi_lo = channels*(rfi[0] - (frequency - bandwidth/2))/bandwidth`
followed by the `int(...)` of the blanking loop bound. -/
def rfiLo (rfi : ℚ × ℚ) (frequency bandwidth : ℚ) (channels : ℕ) : ℤ :=
  pyInt ((channels : ℚ) * (rfi.1 - (frequency - bandwidth / 2)) / bandwidth)

/-- Source line `rfi_hi = channels*(rfi[1] - (frequency - bandwidth/2))/bandwidth`
followed by the `int(...)` of the blanking loop bound. -/
def rfiHi (rfi : ℚ × ℚ) (frequency bandwidth : ℚ) (channels : ℕ) : ℤ :=
  pyInt ((channels : ℚ) * (rfi.2 - (frequency - bandwidth / 2)) / bandwidth)

/-- Physical column selected by `waterfall[:, i]` for an in-range
integer index `i`: numpy wraps a negative index to `channels + i`. -/
def physIdx (channels : ℕ) (i : ℤ) : ℕ :=
  if i < 0 then (i + channels).toNat else i.toNat

/-- One assignment `waterfall[:, i] = np.nan` of the blanking loop:
numpy accepts `-channels ≤ i < channels` (negative indices wrap) and
blanks that column of every integration; any other `i` raises
`IndexError`, embedded as `none`. -/
def blankCol (channels : ℕ) (w : List (List (Option ℚ))) (i : ℤ) :
    Option (List (List (Option ℚ))) :=
  if -(channels : ℤ) ≤ i ∧ i < (channels : ℤ) then
    some (w.map (fun row => row.set (physIdx channels i) none))
  else none

/-- Python `range(lo, hi)` over integers. -/
def intRange (lo hi : ℤ) : List ℤ :=
  (List.range (hi - lo).toNat).map (fun k : ℕ => lo + (k : ℤ))

/-- The RFI masker: `if rfi != [0,0]`, map the frequency interval to the
channel bounds `rfi_lo`/`rfi_hi` and run
`for i in range(int(rfi_lo), int(rfi_hi)): waterfall[:, i] = np.nan`,
stopping with `IndexError` (`none`) at the first out-of-range column. -/
def applyRFIMask (w : List (List (Option ℚ))) (rfi : ℚ × ℚ)
    (frequency bandwidth : ℚ) (channels : ℕ) :
    Option (List (List (Option ℚ))) :=
  if rfi = (0, 0) then some w
  else
    (intRange (rfiLo rfi frequency bandwidth channels)
        (rfiHi rfi frequency bandwidth channels)).foldl
      (fun acc i => acc.bind (fun cur => blankCol channels cur i)) (some w)

/-- Effect of the blanking loop on one row: the successive column
assignments of the indices in `L`, restricted to that row. -/
def maskRowFold (channels : ℕ) (L : List ℤ) (r : List (Option ℚ)) :
    List (Option ℚ) :=
  L.foldl (fun r i => r.set (physIdx channels i) none) r

/-- Insertion of a value into a sorted list (ascending). -/
def insertSorted (x : ℚ) : List ℚ → List ℚ
  | [] => [x]
  | y :: ys => if x ≤ y then x :: y :: ys else y :: insertSorted x ys

/-- Ascending insertion sort, used to take order statistics. -/
def sortQ (l : List ℚ) : List ℚ := l.foldr insertSorted []

/-- numpy `np.nanmedian`: drop the no-value markers, sort, and take the
middle element (odd count) or the mean of the two middle elements (even
count); an empty slice yields the marker. -/
def nanmedian (xs : List (Option ℚ)) : Option ℚ :=
  let v := sortQ (xs.filterMap id)
  let k := v.length
  if k = 0 then none
  else if k % 2 = 1 then some (v.getD (k / 2) 0)
  else some ((v.getD (k / 2 - 1) 0 + v.getD (k / 2) 0) / 2)

/-- The RFI smoother loop
`for i in range(0, len): a[i] = np.nanmedian(a[i:i+n])` run in place on a
copy of the series (the source runs it only when the window size is
nonzero). Each step writes cell `i` after reading cells `[i, i+n)`, so
the writes never feed later windows. -/
def medianFilter (n : ℕ) (a : List (Option ℚ)) : List (Option ℚ) :=
  (List.range a.length).foldl
    (fun cur i => cur.set i (nanmedian ((cur.drop i).take n))) a

/-- Channel frequency axis, in MHz:
`np.linspace(frequency-0.5*bandwidth, frequency+0.5*bandwidth, channels,
endpoint=False)*1e-6`, whose step is `bandwidth / channels`. -/
def freqAxis (frequency bandwidth : ℚ) (channels : ℕ) : List ℚ :=
  (List.range channels).map
    (fun j => (frequency - bandwidth / 2 + j * (bandwidth / channels)) * (1 / 1000000))

/-- numpy `np.max` over a nonempty list (the degenerate empty axis never
occurs: the source always has `channels > 0`). -/
def listMax : List ℚ → ℚ
  | [] => 0
  | x :: xs => xs.foldl max x

/-- numpy `np.min` over a nonempty list. -/
def listMin : List ℚ → ℚ
  | [] => 0
  | x :: xs => xs.foldl min x

/-- Row recursion of `shift(phase_num, n_rows)`, i.e. of
`waterfall[:, phase_num] = np.roll(waterfall[:, phase_num], -n_rows)`:
row `i` receives, at column `c`, the old column entry at row
`(i + n) mod subs` (the index law of `np.roll` by `-n`). -/
def rollColumnGo (c : ℕ) (col : List (Option ℚ)) (n : ℤ) (subs : ℕ) :
    ℕ → List (List (Option ℚ)) → List (List (Option ℚ))
  | _, [] => []
  | i, r :: rs =>
      r.set c (col.getD ((((i : ℤ) + n) % (subs : ℤ)).toNat) none) ::
        rollColumnGo c col n subs (i + 1) rs

/-- Circular shift of waterfall column `c` upward by `n` rows. -/
def rollColumn (w : List (List (Option ℚ))) (c : ℕ) (n : ℤ) :
    List (List (Option ℚ)) :=
  rollColumnGo c (w.map (fun r => r.getD c none)) n w.length 0 w

/-- One call of the local helper `shift`: indexing `waterfall[:, c]`
raises `IndexError` when `c` is not a valid column, embedded as `none`. -/
def shiftCol (w : List (List (Option ℚ))) (c : ℕ) (n : ℤ) :
    Option (List (List (Option ℚ))) :=
  if w.all (fun r => decide (c < r.length)) then some (rollColumn w c n) else none

/-- Shift count of dedispersion iteration `t_bin`:
`f_chan = f_start+t_bin*deltaF`,
`deltaT = 4149*dm*((1/(f_chan**2))-(1/(np.max(frequency)**2)))`,
`n = int((float(deltaT)/(float(1)/channels)))`. -/
def dedispShift (dm fmin fmax deltaF : ℚ) (channels : ℕ) (t_bin : ℕ) : ℤ :=
  let f_chan := fmin + t_bin * deltaF
  let deltaT := 4149 * dm * (1 / f_chan ^ 2 - 1 / fmax ^ 2)
  pyInt (deltaT / (1 / (channels : ℚ)))

/-- Shift count of iteration `t_bin` with the quantities
`deltaF = (np.max(frequency)-np.min(frequency))/subs` and
`f_start = np.min(frequency)` filled in from the frequency axis. -/
def dedispN (dm frequency bandwidth : ℚ) (channels subs t_bin : ℕ) : ℤ :=
  let freq := freqAxis frequency bandwidth channels
  dedispShift dm (listMin freq) (listMax freq)
    ((listMax freq - listMin freq) / (subs : ℚ)) channels t_bin

/-- The dedispersion stage: skipped entirely when `dm = 0` (`if dm != 0`);
otherwise the loop `for t_bin in range(subs): ... shift(t_bin, n)`
applied in place. -/
def dedisperse (dm frequency bandwidth : ℚ) (channels : ℕ)
    (w : List (List (Option ℚ))) : Option (List (List (Option ℚ))) :=
  if dm = 0 then some w
  else
    (List.range w.length).foldl
      (fun acc t_bin => acc.bind
        (fun cur => shiftCol cur t_bin (dedispN dm frequency bandwidth channels w.length t_bin)))
      (some w)

/-- Modelled from the spec 4.4 wording for comparison with the source:
identical to `dedispShift` except that the shift count is
`round(ΔT / (1/channels))` (rounding to nearest) instead of the
source's truncation. -/
def dedispShiftRound (dm fmin fmax deltaF : ℚ) (channels : ℕ) (t_bin : ℕ) : ℤ :=
  let f_chan := fmin + t_bin * deltaF
  let deltaT := 4149 * dm * (1 / f_chan ^ 2 - 1 / fmax ^ 2)
  round (deltaT / (1 / (channels : ℚ)))

/-- Modelled from the spec 4.4 wording for comparison with the source:
the rounded shift count with the axis quantities filled in. -/
def dedispNRound (dm frequency bandwidth : ℚ) (channels subs t_bin : ℕ) : ℤ :=
  let freq := freqAxis frequency bandwidth channels
  dedispShiftRound dm (listMin freq) (listMax freq)
    ((listMax freq - listMin freq) / (subs : ℚ)) channels t_bin

/-- Modelled from the spec 4.4 wording for comparison with the source:
the dedispersion stage as the spec states it, with rounded shift counts. -/
def dedisperseRoundSpec (dm frequency bandwidth : ℚ) (channels : ℕ)
    (w : List (List (Option ℚ))) : Option (List (List (Option ℚ))) :=
  if dm = 0 then some w
  else
    (List.range w.length).foldl
      (fun acc t_bin => acc.bind
        (fun cur => shiftCol cur t_bin (dedispNRound dm frequency bandwidth channels w.length t_bin)))
      (some w)

/-- Values remaining after dropping the no-value markers (the samples
numpy's nan-aware reductions act on). -/
def nanvals (xs : List (Option ℝ)) : List ℝ := xs.filterMap id

/-- numpy `np.nanmean` over real samples. -/
noncomputable def nanmeanR (xs : List (Option ℝ)) : Option ℝ :=
  if (nanvals xs).length = 0 then none
  else some ((nanvals xs).sum / ((nanvals xs).length : ℝ))

/-- numpy `np.nanstd` (population standard deviation over the non-marker
samples). -/
noncomputable def nanstdR (xs : List (Option ℝ)) : Option ℝ :=
  (nanmeanR xs).map (fun mu =>
    Real.sqrt (((nanvals xs).map (fun v => (v - mu) ^ 2)).sum / ((nanvals xs).length : ℝ)))

/-- Default of the local `SNR` helper:
`if mask.size == 0: mask = np.zeros_like(spectrum)`. -/
def snrMask (spectrum : List (Option ℝ)) (mask : List ℝ) : List ℝ :=
  if mask.length = 0 then List.replicate spectrum.length 0 else mask

/-- Boolean-mask selection `xs[m == 0]` for equal-length arrays. -/
noncomputable def selectZero (xs : List (Option ℝ)) (m : List ℝ) : List (Option ℝ) :=
  (xs.zip m).filterMap (fun p => if p.2 = 0 then some p.1 else none)

/-- Elementwise subtraction with the marker (NaN) absorbing, as in numpy
arithmetic. -/
def subNaN : Option ℝ → Option ℝ → Option ℝ
  | some x, some y => some (x - y)
  | _, _ => none

/-- Lag-2 finite difference `spectrum[2:]-spectrum[:-2]`. -/
def snrDiffs (s : List (Option ℝ)) : List (Option ℝ) :=
  List.zipWith subNaN (s.drop 2) (s.take (s.length - 2))

/-- Source line
`noise = np.nanstd((spectrum[2:]-spectrum[:-2])[mask[1:-1] == 0])/np.sqrt(2)`. -/
noncomputable def snrNoise (s : List (Option ℝ)) (mask : List ℝ) : Option ℝ :=
  (nanstdR (selectZero (snrDiffs s) (((snrMask s mask).drop 1).take ((snrMask s mask).length - 2)))).map
    (fun x => x / Real.sqrt 2)

/-- Source line `background = np.nanmean(spectrum[mask == 0])`. -/
noncomputable def snrBackground (s : List (Option ℝ)) (mask : List ℝ) : Option ℝ :=
  nanmeanR (selectZero s (snrMask s mask))

/-- The local helper `SNR`: `return (spectrum-background)/noise`, with
the marker (NaN) propagating through subtraction and division; when
either statistic is itself the marker every output channel is the
marker, as in numpy. Division is Lean's total division: when the noise
estimate is zero the source instead produces non-finite values, so every
theorem below carries a `noise ≠ 0` hypothesis. -/
noncomputable def SNR (s : List (Option ℝ)) (mask : List ℝ) : List (Option ℝ) :=
  match snrBackground s mask, snrNoise s mask with
  | some b, some ns => s.map (Option.map (fun v => (v - b) / ns))
  | _, _ => s.map (fun _ => none)

/-! ## Helper lemmas -/

theorem getD_get?_bridge {α : Type} (l : List α) (i : ℕ) (d : α) :
    l.getD i d = (l.get? i).getD d := rfl

theorem mem_intRange (lo hi i : ℤ) :
    i ∈ intRange lo hi ↔ lo ≤ i ∧ i < hi := by
  unfold intRange
  constructor
  · intro hmem
    obtain ⟨k, hk, he⟩ := List.mem_map.mp hmem
    rw [List.mem_range] at hk
    rw [← he]
    omega
  · intro h
    exact List.mem_map.mpr
      ⟨(i - lo).toNat, List.mem_range.mpr (by omega), by omega⟩

theorem maskRowFold_cons (channels : ℕ) (i : ℤ) (L : List ℤ)
    (r : List (Option ℚ)) :
    maskRowFold channels (i :: L) r =
      maskRowFold channels L (r.set (physIdx channels i) none) := rfl

theorem maskRowFold_nil (channels : ℕ) (L : List ℤ) :
    maskRowFold channels L [] = [] := by
  induction L with
  | nil => rfl
  | cons i L ih => exact ih

theorem maskRowFold_get? (channels : ℕ) (L : List ℤ) :
    ∀ (r : List (Option ℚ)) (j : ℕ),
      (maskRowFold channels L r).get? j =
        if ∃ i ∈ L, physIdx channels i = j then
          (r.get? j).map (fun _ => none)
        else r.get? j := by
  induction L with
  | nil => intro r j; simp [maskRowFold]
  | cons i L ih =>
    intro r j
    rw [maskRowFold_cons, ih]
    by_cases hmem : ∃ a ∈ L, physIdx channels a = j
    · rw [if_pos hmem]
      obtain ⟨a, ha, hpa⟩ := hmem
      rw [if_pos (show ∃ a ∈ i :: L, physIdx channels a = j from
        ⟨a, List.mem_cons_of_mem i ha, hpa⟩)]
      by_cases hij : physIdx channels i = j
      · subst hij
        rw [List.get?_set_eq]
        cases r.get? (physIdx channels i) <;> rfl
      · rw [List.get?_set_ne _ _ hij]
    · rw [if_neg hmem]
      by_cases hij : physIdx channels i = j
      · rw [if_pos (show ∃ a ∈ i :: L, physIdx channels a = j from
          ⟨i, List.mem_cons_self i L, hij⟩)]
        subst hij
        rw [List.get?_set_eq]
        rfl
      · rw [if_neg (show ¬∃ a ∈ i :: L, physIdx channels a = j from ?_),
          List.get?_set_ne _ _ hij]
        rintro ⟨a, ha, hpa⟩
        rcases List.mem_cons.mp ha with rfl | hatail
        · exact hij hpa
        · exact hmem ⟨a, hatail, hpa⟩

theorem maskRowFold_length (channels : ℕ) (L : List ℤ) :
    ∀ r : List (Option ℚ), (maskRowFold channels L r).length = r.length := by
  induction L with
  | nil => intro r; rfl
  | cons i L ih =>
    intro r
    rw [maskRowFold_cons, ih, List.length_set]

theorem maskRowFold_idem (channels : ℕ) (L : List ℤ) (r : List (Option ℚ)) :
    maskRowFold channels L (maskRowFold channels L r) =
      maskRowFold channels L r := by
  apply List.ext
  intro j
  rw [maskRowFold_get? channels L (maskRowFold channels L r) j,
    maskRowFold_get? channels L r j]
  by_cases hmem : ∃ i ∈ L, physIdx channels i = j
  · rw [if_pos hmem, if_pos hmem]
    cases r.get? j <;> rfl
  · rw [if_neg hmem, if_neg hmem]

theorem mask_foldl_none (channels : ℕ) (L : List ℤ) :
    L.foldl (fun acc i => acc.bind (fun cur => blankCol channels cur i))
      none = none := by
  induction L with
  | nil => rfl
  | cons i L ih => simpa using ih

theorem mask_fold_ok (channels : ℕ) :
    ∀ L : List ℤ, (∀ i ∈ L, -(channels : ℤ) ≤ i ∧ i < (channels : ℤ)) →
    ∀ w : List (List (Option ℚ)),
      L.foldl (fun acc i => acc.bind (fun cur => blankCol channels cur i))
        (some w) = some (w.map (maskRowFold channels L)) := by
  intro L
  induction L with
  | nil =>
    intro _ w
    have h : w.map (maskRowFold channels []) = w := by
      have hcongr : w.map (maskRowFold channels []) = w.map (fun r => r) :=
        List.map_congr_left (fun r _ => rfl)
      rw [hcongr]
      exact List.map_id' w
    rw [List.foldl_nil, h]
  | cons i L ih =>
    intro hok w
    have hstep : blankCol channels w i =
        some (w.map (fun row => row.set (physIdx channels i) none)) := by
      rw [blankCol, if_pos (hok i (List.mem_cons_self i L))]
    simp only [List.foldl_cons, Option.some_bind, hstep]
    rw [ih (fun a ha => hok a (List.mem_cons_of_mem i ha)), List.map_map]
    rfl

theorem mask_fold_fail (channels : ℕ) :
    ∀ L : List ℤ,
      (∃ i ∈ L, ¬(-(channels : ℤ) ≤ i ∧ i < (channels : ℤ))) →
      ∀ w : List (List (Option ℚ)),
        L.foldl (fun acc i => acc.bind (fun cur => blankCol channels cur i))
          (some w) = none := by
  intro L
  induction L with
  | nil =>
    rintro ⟨i, hi, _⟩
    exact absurd hi (List.not_mem_nil i)
  | cons a L ih =>
    rintro ⟨i, hi, hni⟩ w
    rcases List.mem_cons.mp hi with rfl | hitail
    · have hstep : blankCol channels w i = none := by
        rw [blankCol, if_neg hni]
      simp only [List.foldl_cons, Option.some_bind, hstep]
      exact mask_foldl_none channels L
    · by_cases hoka : -(channels : ℤ) ≤ a ∧ a < (channels : ℤ)
      · have hstep : blankCol channels w a =
            some (w.map (fun row => row.set (physIdx channels a) none)) := by
          rw [blankCol, if_pos hoka]
        simp only [List.foldl_cons, Option.some_bind, hstep]
        exact ih ⟨i, hitail, hni⟩ _
      · have hstep : blankCol channels w a = none := by
          rw [blankCol, if_neg hoka]
        simp only [List.foldl_cons, Option.some_bind, hstep]
        exact mask_foldl_none channels L

theorem nanmean_all_none (xs : List (Option ℚ)) (h : ∀ x ∈ xs, x = none) :
    nanmean xs = none := by
  have hnil : xs.filterMap id = [] := by
    rw [List.filterMap_eq_nil]
    intro a ha
    exact h a ha
  simp [nanmean, hnil]

/-! ## C2: frequency interval to channel mapping of the RFI masker -/

/-- C2: the caller-supplied interval is mapped to integer channel bounds
by `channel = channels*(freq - (frequency - bandwidth/2))/bandwidth`
truncated; whenever the mapped bounds lie inside the band (the regime of
the spec's example — outside it the source's blanking loop wraps
negative indices or raises `IndexError`), masking succeeds and replaces
every sample of every integration in the channel range `[rfi_lo, rfi_hi)`
by the no-value marker, keeping every other sample; at center frequency
1000 MHz, bandwidth 100 MHz, 1024 channels, interval [990e6, 1010e6] Hz,
the bounds are 409 and 614. -/
theorem rfi_mask_maps_interval (w : List (List (Option ℚ))) (rfi : ℚ × ℚ)
    (frequency bandwidth : ℚ) (channels : ℕ) (hrfi : rfi ≠ (0, 0))
    (hlo : 0 ≤ rfiLo rfi frequency bandwidth channels)
    (hhi : rfiHi rfi frequency bandwidth channels ≤ (channels : ℤ)) :
    (∃ v, applyRFIMask w rfi frequency bandwidth channels = some v ∧
      ∀ i j, (v.getD i []).getD j none =
        if rfiLo rfi frequency bandwidth channels ≤ (j : ℤ) ∧
            (j : ℤ) < rfiHi rfi frequency bandwidth channels then none
        else (w.getD i []).getD j none) ∧
      (rfi = (990000000, 1010000000) → frequency = 1000000000 →
        bandwidth = 100000000 → channels = 1024 →
        rfiLo rfi frequency bandwidth channels = 409 ∧
          rfiHi rfi frequency bandwidth channels = 614) := by
  constructor
  · set lo := rfiLo rfi frequency bandwidth channels with hlodef
    set hi := rfiHi rfi frequency bandwidth channels with hhidef
    have hok : ∀ i ∈ intRange lo hi,
        -(channels : ℤ) ≤ i ∧ i < (channels : ℤ) := by
      intro i hi'
      rw [mem_intRange] at hi'
      constructor <;> omega
    refine ⟨w.map (maskRowFold channels (intRange lo hi)), ?_, ?_⟩
    · rw [applyRFIMask, if_neg hrfi]
      exact mask_fold_ok channels _ hok w
    · intro i j
      have hrow : (w.map (maskRowFold channels (intRange lo hi))).getD i [] =
          maskRowFold channels (intRange lo hi) (w.getD i []) := by
        rw [getD_get?_bridge, List.get?_map, getD_get?_bridge]
        cases w.get? i
        · simp [maskRowFold_nil]
        · rfl
      rw [hrow, getD_get?_bridge, maskRowFold_get?]
      by_cases hj : lo ≤ (j : ℤ) ∧ (j : ℤ) < hi
      · rw [if_pos ?_, if_pos hj]
        · cases (w.getD i []).get? j <;> rfl
        · refine ⟨(j : ℤ), (mem_intRange lo hi (j : ℤ)).mpr hj, ?_⟩
          unfold physIdx
          rw [if_neg (by omega)]
          omega
      · rw [if_neg ?_, if_neg hj, ← getD_get?_bridge]
        rintro ⟨a, ha, hpa⟩
        rw [mem_intRange] at ha
        unfold physIdx at hpa
        rw [if_neg (by omega)] at hpa
        omega
  · intro h1 h2 h3 h4
    subst h1; subst h2; subst h3; subst h4
    exact ⟨by norm_num [rfiLo, pyInt], by norm_num [rfiHi, pyInt]⟩

/-- Witness for C2 at the spec's example configuration, on a one-row,
1024-channel waterfall: masking succeeds, channel 500 is blanked, and
the bounds are 409 and 614. -/
theorem rfi_mask_maps_interval_witness :
    ∃ v, applyRFIMask [List.replicate 1024 (some 1)]
        (990000000, 1010000000) 1000000000 100000000 1024 = some v ∧
      (v.getD 0 []).getD 500 none = none ∧
      rfiLo (990000000, 1010000000) 1000000000 100000000 1024 = 409 ∧
      rfiHi (990000000, 1010000000) 1000000000 100000000 1024 = 614 := by
  obtain ⟨⟨v, hv, hent⟩, hex⟩ := rfi_mask_maps_interval
    [List.replicate 1024 (some 1)] (990000000, 1010000000) 1000000000
    100000000 1024 (by norm_num) (by norm_num [rfiLo, pyInt])
    (by norm_num [rfiHi, pyInt])
  refine ⟨v, hv, ?_, hex rfl rfl rfl rfl⟩
  rw [hent 0 500, if_pos]
  constructor <;> norm_num [rfiLo, rfiHi, pyInt]

/-! ## C3: idempotence of RFI masking -/

/-- C3: RFI masking is idempotent for every recording and every
frequency interval: running the masker again on the result of a first
masking (propagating its failure, when the source's loop raises) gives
exactly the result of masking once — a successful masking re-blanks the
same physical channels, and a failed masking stays failed. -/
theorem rfi_mask_idempotent (w : List (List (Option ℚ))) (rfi : ℚ × ℚ)
    (frequency bandwidth : ℚ) (channels : ℕ) :
    (applyRFIMask w rfi frequency bandwidth channels).bind
        (fun v => applyRFIMask v rfi frequency bandwidth channels) =
      applyRFIMask w rfi frequency bandwidth channels := by
  by_cases hrfi : rfi = (0, 0)
  · simp [applyRFIMask, hrfi]
  · simp only [applyRFIMask, if_neg hrfi]
    by_cases hok : ∀ i ∈ intRange (rfiLo rfi frequency bandwidth channels)
        (rfiHi rfi frequency bandwidth channels),
        -(channels : ℤ) ≤ i ∧ i < (channels : ℤ)
    · rw [mask_fold_ok channels _ hok w, Option.some_bind,
        mask_fold_ok channels _ hok _, List.map_map]
      congr 1
      apply List.map_congr_left
      intro r _
      exact maskRowFold_idem channels _ r
    · have hbad : ∃ i ∈ intRange (rfiLo rfi frequency bandwidth channels)
          (rfiHi rfi frequency bandwidth channels),
          ¬(-(channels : ℤ) ≤ i ∧ i < (channels : ℤ)) := by
        rcases not_forall.mp hok with ⟨i, hi⟩
        rw [Classical.not_imp] at hi
        exact ⟨i, hi.1, hi.2⟩
      rw [mask_fold_fail channels _ hbad w]
      rfl

/-! ## C4: all-masked columns average to the no-value marker -/

/-- C4: when every integration holds the no-value marker at channel `j`,
the average spectrum holds the marker at channel `j` (not a number), and
spectral averaging still yields a full `channels`-length spectrum (no
abort). -/
theorem avg_spectrum_all_masked (w : List (List (Option ℚ))) (channels j : ℕ)
    (hj : j < channels) (hmask : ∀ r ∈ w, r.getD j none = none) :
    (avgSpectrum w channels).get? j = some none ∧
      (avgSpectrum w channels).length = channels := by
  constructor
  · have hval : nanmean (w.map (fun r => r.getD j none)) = none := by
      apply nanmean_all_none
      intro x hx
      obtain ⟨r, hr, hrx⟩ := List.mem_map.mp hx
      rw [← hrx]
      exact hmask r hr
    unfold avgSpectrum
    rw [List.get?_map, List.get?_range hj, Option.map_some']
    simp only [hval]
  · simp [avgSpectrum]

/-- Witness for C4 on a 2-integration, 1-channel all-masked recording. -/
theorem avg_spectrum_all_masked_witness :
    (avgSpectrum [[none], [none]] 1).get? 0 = some none ∧
      (avgSpectrum [[none], [none]] 1).length = 1 :=
  avg_spectrum_all_masked [[none], [none]] 1 0 (by decide) (by decide)

/-! ## C5: dedispersion with dm = 0 is a strict no-op -/

/-- C5: with `dm = 0` the dedisperser is short-circuited and the
waterfall is returned unchanged, every channel included. -/
theorem dedisperse_zero_dm (frequency bandwidth : ℚ) (channels : ℕ)
    (w : List (List (Option ℚ))) :
    dedisperse 0 frequency bandwidth channels w = some w := by
  simp [dedisperse]

/-! ## C6 counterexample: the shift count is truncated, not rounded -/

/-- C6 counterexample: on a 2x2 waterfall with frequency axis [1, 2] MHz
and `dm = 1/4149`, the first shift count is `int(1.5) = 1` in the source
but `round(1.5) = 2` under the claim, and the resulting waterfalls
differ. -/
theorem dedisperse_round_counterexample :
    dedisperse (1 / 4149) 2000000 2000000 2
        [[some 1, some 0], [some 2, some 0]] ≠
      dedisperseRoundSpec (1 / 4149) 2000000 2000000 2
        [[some 1, some 0], [some 2, some 0]] := by
  have hA : dedisperse (1 / 4149) 2000000 2000000 2
      [[some 1, some 0], [some 2, some 0]] =
      some [[some 2, some 0], [some 1, some 0]] := by
    norm_num [dedisperse, dedispN, dedispShift, pyInt, freqAxis, listMax,
      listMin, List.range_succ, shiftCol, rollColumn, rollColumnGo]
  have hB : dedisperseRoundSpec (1 / 4149) 2000000 2000000 2
      [[some 1, some 0], [some 2, some 0]] =
      some [[some 1, some 0], [some 2, some 0]] := by
    norm_num [dedisperseRoundSpec, dedispNRound, dedispShiftRound, round_eq,
      freqAxis, listMax, listMin, List.range_succ, shiftCol, rollColumn,
      rollColumnGo]
  rw [hA, hB]
  norm_num

/-! ## C8 counterexample: the truncated even window medians to 4.5 -/

/-- C8 counterexample: the forward-window median filter with n = 3 on
[1,2,3,4,5] returns [2,3,4,4.5,5], not the claimed [2,3,4,5,5]: the
penultimate truncated window [4,5] has even length and medians to 4.5. -/
theorem median_filter_example_refuted :
    medianFilter 3 [some 1, some 2, some 3, some 4, some 5] ≠
      [some 2, some 3, some 4, some 5, some 5] := by
  have h : medianFilter 3 [some 1, some 2, some 3, some 4, some 5] =
      [some 2, some 3, some 4, some (9 / 2 : ℚ), some 5] := by
    norm_num [medianFilter, nanmedian, sortQ, insertSorted, List.range_succ,
      List.filterMap_cons, List.cons_ne_nil]
  rw [h]
  norm_num

/-! ## C9 counterexample: a zero bin count does not abort the loader -/

/-- C9 counterexample: with channels = 4, sample_integration_time = 1,
bandwidth = 2 the accumulation-bin count is 0 < 1, yet the loader still
produces a loaded recording (the source divides by zero instead of
raising any error). -/
theorem load_zero_bins_counterexample :
    bins 1 2 4 < 1 ∧ (load (List.replicate 16 1) 4 1 2).isSome = true := by
  constructor
  · norm_num [bins, pyInt]
  · decide

/-- C9 amended: whenever the sample count is a positive multiple of
`channels`, the loader succeeds regardless of the bin count; when the
bin count is zero every loaded sample is the non-finite marker produced
by the division by zero. -/
theorem load_zero_bins_spec (raw : List ℚ) (channels : ℕ)
    (t_sample bandwidth : ℚ) (hch : 0 < channels)
    (hdvd : channels ∣ raw.length)
    (hb : bins t_sample bandwidth channels = 0) :
    ∃ w, load raw channels t_sample bandwidth = some w ∧
      ∀ r ∈ w, ∀ x ∈ r, x = none := by
  refine ⟨_, by rw [load, if_pos ⟨hch, hdvd⟩], ?_⟩
  intro r hr x hx
  have hr' := List.mem_of_mem_drop hr
  obtain ⟨row, _, hrow⟩ := List.mem_map.mp hr'
  rw [← hrow] at hx
  obtain ⟨y, _, hy⟩ := List.mem_map.mp hx
  rw [← hy, normSample, if_pos hb]

/-- Witness for the amended C9 at the counterexample configuration. -/
theorem load_zero_bins_spec_witness :
    ∃ w, load (List.replicate 16 1) 4 1 2 = some w ∧
      ∀ r ∈ w, ∀ x ∈ r, x = none :=
  load_zero_bins_spec (List.replicate 16 1) 4 1 2 (by decide) (by decide)
    (by norm_num [bins, pyInt])

/-- Invariant of the in-place smoothing loop: after the first `k`
iterations the prefix holds the forward-window medians of the original
series and the suffix is untouched (the loop at step `i` reads only
cells `i` and beyond, which no earlier step has written). -/
theorem medianFilter_fold_inv (n : ℕ) (a : List (Option ℚ)) :
    ∀ k, k ≤ a.length →
      (((List.range k).foldl
          (fun cur i => cur.set i (nanmedian ((cur.drop i).take n))) a).length
          = a.length) ∧
      (∀ i, k ≤ i →
        ((List.range k).foldl
          (fun cur i => cur.set i (nanmedian ((cur.drop i).take n))) a).get? i
          = a.get? i) ∧
      (∀ i, i < k →
        ((List.range k).foldl
          (fun cur i => cur.set i (nanmedian ((cur.drop i).take n))) a).get? i
          = some (nanmedian ((a.drop i).take n))) := by
  intro k
  induction k with
  | zero => exact fun _ => ⟨rfl, fun _ _ => rfl, fun i hi => absurd hi (by omega)⟩
  | succ k ih =>
    intro hk
    obtain ⟨hlen, hsuf, hpre⟩ := ih (by omega)
    set r := (List.range k).foldl
      (fun cur i => cur.set i (nanmedian ((cur.drop i).take n))) a with hr
    have hfold : (List.range (k + 1)).foldl
        (fun cur i => cur.set i (nanmedian ((cur.drop i).take n))) a =
        r.set k (nanmedian ((r.drop k).take n)) := by
      rw [List.range_succ, List.foldl_append, ← hr]
      rfl
    have hdrop : r.drop k = a.drop k := by
      apply List.ext
      intro m
      rw [List.get?_drop, List.get?_drop]
      exact hsuf (k + m) (by omega)
    rw [hfold, hdrop]
    refine ⟨by simp [hlen], ?_, ?_⟩
    · intro i hi
      rw [List.get?_set_ne _ _ (by omega)]
      exact hsuf i (by omega)
    · intro i hi
      rcases Nat.lt_succ_iff_lt_or_eq.mp hi with hik | hik
      · rw [List.get?_set_ne _ _ (by omega)]
        exact hpre i hik
      · subst hik
        rw [List.get?_set_eq]
        obtain ⟨x, hx⟩ : ∃ x, r.get? i = some x := by
          refine ⟨r.get ⟨i, ?_⟩, List.get?_eq_get ?_⟩ <;> omega
        rw [hx]
        rfl

/-- C8 amended: for every series and nonzero window size `n`, the RFI
smoother replaces element `i` by the nan-aware median of the forward
window `[i, i+n)` of the original series, the window truncating at the
end of the array (with `n = 3` on `[1,2,3,4,5]` the output is
`[2,3,4,4.5,5]`, the even-length final-but-one window giving 4.5). -/
theorem median_filter_forward_window (n : ℕ) (a : List (Option ℚ))
    (hn : n ≠ 0) :
    (medianFilter n a).length = a.length ∧
      ∀ i, i < a.length →
        (medianFilter n a).get? i = some (nanmedian ((a.drop i).take n)) := by
  obtain ⟨hlen, _, hpre⟩ := medianFilter_fold_inv n a a.length le_rfl
  exact ⟨hlen, hpre⟩

/-- Witness for the amended C8 at the spec's example, with the corrected
value 9/2 at index 3. -/
theorem median_filter_forward_window_witness :
    (3 : ℕ) ≠ 0 ∧
      (medianFilter 3 [some 1, some 2, some 3, some 4, some 5]).get? 3 =
        some (some (9 / 2 : ℚ)) := by
  refine ⟨by decide, ?_⟩
  have h := (median_filter_forward_window 3
    [some 1, some 2, some 3, some 4, some 5] (by decide)).2 3 (by decide)
  rw [h]
  norm_num [nanmedian, sortQ, insertSorted, List.filterMap_cons,
    List.cons_ne_nil]

/-! ## Dedispersion loop analysis -/

theorem getD_set_self (r : List (Option ℚ)) (k : ℕ) (hk : k < r.length)
    (v : Option ℚ) : (r.set k v).getD k none = v := by
  rw [getD_get?_bridge, List.get?_set_eq]
  obtain ⟨x, hx⟩ : ∃ x, r.get? k = some x := ⟨r.get ⟨k, hk⟩, List.get?_eq_get hk⟩
  rw [hx]
  rfl

theorem getD_set_ne (r : List (Option ℚ)) (k j : ℕ) (h : k ≠ j) (v : Option ℚ) :
    (r.set k v).getD j none = r.getD j none := by
  rw [getD_get?_bridge, List.get?_set_ne _ _ h, getD_get?_bridge]

theorem col_getD (w : List (List (Option ℚ))) (c m : ℕ) :
    (w.map (fun r => r.getD c none)).getD m none = (w.getD m []).getD c none := by
  induction w generalizing m with
  | nil => cases m <;> rfl
  | cons r rs ih => cases m with
    | zero => rfl
    | succ m' => simpa using ih m'

theorem rollColumnGo_get? (c : ℕ) (col : List (Option ℚ)) (n : ℤ) (subs : ℕ) :
    ∀ (rows : List (List (Option ℚ))) (k i : ℕ),
      (rollColumnGo c col n subs k rows).get? i =
        (rows.get? i).map (fun r =>
          r.set c (col.getD ((((k + i : ℕ) : ℤ) + n) % (subs : ℤ)).toNat none))
  | [], k, i => by simp [rollColumnGo]
  | r :: rs, k, 0 => by simp [rollColumnGo]
  | r :: rs, k, i + 1 => by
      have h := rollColumnGo_get? c col n subs rs (k + 1) i
      simp only [rollColumnGo, List.get?_cons_succ, h]
      have he : k + (i + 1) = (k + 1) + i := by omega
      rw [he]

theorem rollColumnGo_length (c : ℕ) (col : List (Option ℚ)) (n : ℤ)
    (subs : ℕ) : ∀ (rows : List (List (Option ℚ))) (k : ℕ),
      (rollColumnGo c col n subs k rows).length = rows.length
  | [], _ => rfl
  | r :: rs, k => by
      simp [rollColumnGo, rollColumnGo_length c col n subs rs (k + 1)]

theorem rollColumn_length (w : List (List (Option ℚ))) (c : ℕ) (n : ℤ) :
    (rollColumn w c n).length = w.length :=
  rollColumnGo_length c _ n w.length w 0

theorem rollColumn_get? (w : List (List (Option ℚ))) (c : ℕ) (n : ℤ) (i : ℕ) :
    (rollColumn w c n).get? i = (w.get? i).map (fun r =>
      r.set c ((w.map (fun r => r.getD c none)).getD
        (((i : ℤ) + n) % (w.length : ℤ)).toNat none)) := by
  unfold rollColumn
  rw [rollColumnGo_get?]
  norm_num

/-- Closed form of the dedispersion loop prefix: after the iterations
`t_bin = 0, ..., k-1` (all in bounds when `k ≤ channels`), column `j < k`
of every row `i` holds the original column `j` rolled up by `nsh j`, and
every other entry is unchanged. -/
theorem shift_fold_inv (nsh : ℕ → ℤ) (channels : ℕ)
    (w : List (List (Option ℚ))) (hrect : ∀ r ∈ w, r.length = channels) :
    ∀ k, k ≤ channels →
      ∃ v, (List.range k).foldl
          (fun acc t => acc.bind (fun cur => shiftCol cur t (nsh t)))
          (some w) = some v ∧
        v.length = w.length ∧ (∀ r ∈ v, r.length = channels) ∧
        ∀ i j, (v.getD i []).getD j none =
          if j < k ∧ i < w.length then
            (w.getD (((i : ℤ) + nsh j) % (w.length : ℤ)).toNat []).getD j none
          else (w.getD i []).getD j none := by
  intro k
  induction k with
  | zero =>
    exact fun _ => ⟨w, rfl, rfl, hrect, fun i j => by simp⟩
  | succ k ih =>
    intro hk
    obtain ⟨v, hfold, hvlen, hvrect, hvent⟩ := ih (by omega)
    have hguard : v.all (fun r => decide (k < r.length)) = true := by
      rw [List.all_eq_true]
      intro r hr
      rw [hvrect r hr]
      exact decide_eq_true (by omega)
    have hstep : shiftCol v k (nsh k) = some (rollColumn v k (nsh k)) := by
      unfold shiftCol
      rw [hguard]
      rfl
    have hfold' : (List.range (k + 1)).foldl
        (fun acc t => acc.bind (fun cur => shiftCol cur t (nsh t)))
        (some w) = some (rollColumn v k (nsh k)) := by
      rw [List.range_succ, List.foldl_append, hfold]
      simp [hstep]
    refine ⟨rollColumn v k (nsh k), hfold', by rw [rollColumn_length, hvlen],
      ?_, ?_⟩
    · intro r' hr'
      obtain ⟨i, hi⟩ := List.mem_iff_get?.mp hr'
      rw [rollColumn_get?] at hi
      cases hv : v.get? i with
      | none => rw [hv] at hi; exact absurd hi (by simp)
      | some r =>
        rw [hv] at hi
        have hrv : r ∈ v := List.get?_mem hv
        have : r' = r.set k _ := (Option.some.injEq _ _).mp hi.symm
        rw [this, List.length_set]
        exact hvrect r hrv
    · intro i j
      by_cases hi : i < w.length
      · obtain ⟨r, hr⟩ : ∃ r, v.get? i = some r :=
          ⟨v.get ⟨i, by omega⟩, List.get?_eq_get (by rw [hvlen]; omega)⟩
        have hrowD : (rollColumn v k (nsh k)).getD i [] =
            r.set k ((v.map (fun r => r.getD k none)).getD
              (((i : ℤ) + nsh k) % (v.length : ℤ)).toNat none) := by
          rw [getD_get?_bridge, rollColumn_get?, hr]
          rfl
        have hcv : (v.map (fun r => r.getD k none)).getD
            (((i : ℤ) + nsh k) % (v.length : ℤ)).toNat none =
            (w.getD (((i : ℤ) + nsh k) % (w.length : ℤ)).toNat []).getD k
              none := by
          rw [col_getD, hvlen, hvent]
          simp
        have hvri : v.getD i [] = r := by rw [getD_get?_bridge, hr]; rfl
        rw [hrowD]
        by_cases hjk : j = k
        · subst hjk
          rw [getD_set_self _ _ (by rw [hvrect r (List.get?_mem hr)]; omega),
            hcv, if_pos ⟨by omega, hi⟩]
        · rw [getD_set_ne _ _ _ (fun h => hjk h.symm), ← hvri, hvent]
          by_cases hjk2 : j < k
          · rw [if_pos ⟨hjk2, hi⟩, if_pos ⟨by omega, hi⟩]
          · rw [if_neg (by tauto), if_neg (by omega)]
      · have hnone : (rollColumn v k (nsh k)).get? i = none := by
          rw [rollColumn_get?]
          have : v.get? i = none := by
            rw [List.get?_eq_none]
            omega
          rw [this]
          rfl
        have h1 : (rollColumn v k (nsh k)).getD i [] = [] := by
          rw [getD_get?_bridge, hnone]
          rfl
        have h2 : w.getD i [] = [] := by
          rw [getD_get?_bridge, List.get?_eq_none.mpr (by omega)]
          rfl
        rw [h1, h2, if_neg (by tauto)]

/-- C6 amended: for nonzero `dm` on a rectangular waterfall with at most
as many integrations as channels, the dedisperser sends entry `(i, j)`
of every shifted column `j < subs` to the input entry
`((i + n j) mod subs, j)` — a circular upward shift of column `j` by
`n j = int(ΔT/(1/channels))` (Python truncation toward zero, not
rounding to nearest), `ΔT = 4149·dm·(1/f_j² − 1/f_max²)` at the row
frequency `f_j = f_min + j·(f_max−f_min)/subs` — and leaves every other
entry unchanged. -/
theorem dedisperse_shift_spec (dm frequency bandwidth : ℚ) (channels : ℕ)
    (w : List (List (Option ℚ))) (hdm : dm ≠ 0)
    (hrect : ∀ r ∈ w, r.length = channels) (hsubs : w.length ≤ channels) :
    ∃ v, dedisperse dm frequency bandwidth channels w = some v ∧
      v.length = w.length ∧
      ∀ i j, (v.getD i []).getD j none =
        if j < w.length ∧ i < w.length then
          (w.getD (((i : ℤ) +
              dedispN dm frequency bandwidth channels w.length j) %
              (w.length : ℤ)).toNat []).getD j none
        else (w.getD i []).getD j none := by
  obtain ⟨v, hfold, hlen, _, hent⟩ := shift_fold_inv
    (dedispN dm frequency bandwidth channels w.length) channels w hrect
    w.length hsubs
  refine ⟨v, ?_, hlen, hent⟩
  rw [dedisperse, if_neg hdm]
  exact hfold

/-- Witness for the amended C6 on the 2x2 example waterfall. -/
theorem dedisperse_shift_spec_witness :
    ∃ v, dedisperse (1 / 4149) 2000000 2000000 2
        [[some 1, some 0], [some 2, some 0]] = some v ∧ v.length = 2 := by
  obtain ⟨v, h1, h2, _⟩ := dedisperse_shift_spec (1 / 4149) 2000000 2000000 2
    [[some 1, some 0], [some 2, some 0]] (by norm_num) (by decide) (by decide)
  exact ⟨v, h1, by simpa using h2⟩

theorem shift_foldl_none (nsh : ℕ → ℤ) (l : List ℕ) :
    l.foldl (fun acc t => acc.bind (fun cur => shiftCol cur t (nsh t)))
      none = none := by
  induction l with
  | nil => rfl
  | cons t ts ih => simpa using ih

/-- Once the loop index reaches the channel count on a nonempty
rectangular waterfall, the column access `waterfall[:, t_bin]` is out of
range and the loop fails. -/
theorem shift_fold_oob (nsh : ℕ → ℤ) (channels : ℕ)
    (w : List (List (Option ℚ))) (hrect : ∀ r ∈ w, r.length = channels)
    (hw : w ≠ []) :
    ∀ k, channels < k →
      (List.range k).foldl
        (fun acc t => acc.bind (fun cur => shiftCol cur t (nsh t)))
        (some w) = none := by
  intro k
  induction k with
  | zero => exact fun h => absurd h (by omega)
  | succ k ih =>
    intro hk
    rw [List.range_succ, List.foldl_append]
    by_cases hck : channels < k
    · rw [ih hck]
      exact shift_foldl_none nsh [k]
    · have hkc : k = channels := by omega
      subst hkc
      obtain ⟨v, hfold, hvlen, hvrect, _⟩ := shift_fold_inv nsh k w hrect k
        le_rfl
      obtain ⟨r, hr⟩ : ∃ r, r ∈ v := by
        cases hv : v with
        | nil =>
          rw [hv] at hvlen
          exact absurd (List.length_eq_zero.mp hvlen.symm) hw
        | cons a l => exact ⟨a, List.mem_cons_self a l⟩
      have hguard : v.all (fun r => decide (k < r.length)) = false := by
        rw [Bool.eq_false_iff]
        intro hall
        have := List.all_eq_true.mp hall r hr
        rw [hvrect r hr] at this
        exact absurd (of_decide_eq_true this) (by omega)
      have hstep : shiftCol v k (nsh k) = none := by
        unfold shiftCol
        rw [hguard]
        rfl
      rw [hfold]
      simp [hstep]

/-- C10: for nonzero `dm` the dedisperser indexes waterfall columns by
the integration-row index; on a rectangular waterfall it succeeds
exactly when the post-load integration count is at most the channel
count, leaving the columns `j ≥ subs` it never visits unchanged, and
fails (out-of-range column access) when the integration count exceeds
the channel count. -/
theorem dedisperse_bounds (dm frequency bandwidth : ℚ) (channels : ℕ)
    (w : List (List (Option ℚ))) (hdm : dm ≠ 0)
    (hrect : ∀ r ∈ w, r.length = channels) :
    (w.length ≤ channels →
      ∃ v, dedisperse dm frequency bandwidth channels w = some v ∧
        ∀ i j, w.length ≤ j →
          (v.getD i []).getD j none = (w.getD i []).getD j none) ∧
    (channels < w.length →
      dedisperse dm frequency bandwidth channels w = none) := by
  constructor
  · intro hsubs
    obtain ⟨v, hfold, _, _, hent⟩ := shift_fold_inv
      (dedispN dm frequency bandwidth channels w.length) channels w hrect
      w.length hsubs
    refine ⟨v, ?_, ?_⟩
    · rw [dedisperse, if_neg hdm]
      exact hfold
    · intro i j hj
      rw [hent i j, if_neg (by omega)]
  · intro hsubs
    have hw : w ≠ [] := by
      intro h
      rw [h] at hsubs
      exact absurd hsubs (by simp)
    rw [dedisperse, if_neg hdm]
    exact shift_fold_oob (dedispN dm frequency bandwidth channels w.length)
      channels w hrect hw w.length hsubs

/-- Witness for C10: on a 2x2 waterfall dedispersion succeeds; on a 3x2
waterfall (more integrations than channels) it fails. -/
theorem dedisperse_bounds_witness :
    (∃ v, dedisperse (1 / 4149) 2000000 2000000 2
        [[some 1, some 0], [some 2, some 0]] = some v) ∧
      dedisperse (1 / 4149) 2000000 2000000 2
        [[some 1, some 0], [some 2, some 0], [some 3, some 0]] = none := by
  constructor
  · obtain ⟨v, h, _⟩ := (dedisperse_bounds (1 / 4149) 2000000 2000000 2
      [[some 1, some 0], [some 2, some 0]] (by norm_num) (by decide)).1
      (by decide)
    exact ⟨v, h⟩
  · exact (dedisperse_bounds (1 / 4149) 2000000 2000000 2
      [[some 1, some 0], [some 2, some 0], [some 3, some 0]] (by norm_num)
      (by decide)).2 (by decide)

/-! ## C1: frame loading -/

theorem toRows_length (raw : List ℚ) (channels : ℕ) :
    (toRows raw channels).length = raw.length / channels := by
  simp [toRows]

theorem toRows_get? (raw : List ℚ) (channels : ℕ) (i : ℕ)
    (hi : i < raw.length / channels) :
    (toRows raw channels).get? i =
      some ((raw.drop (i * channels)).take channels) := by
  unfold toRows
  rw [List.get?_map, List.get?_range hi]
  rfl

/-- C1: on any raw recording whose sample count is a multiple of the
channel count, with at least 3 integrations and a positive accumulation
bin count, loading drops exactly the first 3 integrations (post-load
count = raw count − 3), the bin count is
`floor(sample_integration_time*bandwidth/channels)`, every retained
sample is the raw sample divided by the bin count, and the average
spectrum of the loaded recording has one value per channel. -/
theorem load_spec (raw : List ℚ) (channels : ℕ) (t_sample bandwidth : ℚ)
    (hch : 0 < channels) (hdvd : channels ∣ raw.length)
    (h3 : 3 ≤ raw.length / channels) (hb0 : 0 ≤ t_sample * bandwidth)
    (hb1 : 1 ≤ bins t_sample bandwidth channels) :
    ∃ w, load raw channels t_sample bandwidth = some w ∧
      w.length = raw.length / channels - 3 ∧
      bins t_sample bandwidth channels =
        ⌊t_sample * bandwidth / (channels : ℚ)⌋ ∧
      (∀ i j, i < w.length → j < channels →
        (w.getD i []).getD j none =
          some (raw.getD ((i + 3) * channels + j) 0 /
            ((bins t_sample bandwidth channels : ℤ) : ℚ))) ∧
      (avgSpectrum w channels).length = channels := by
  set b := bins t_sample bandwidth channels with hbdef
  refine ⟨((toRows raw channels).map
      (List.map (normSample b))).drop 3, by rw [load, if_pos ⟨hch, hdvd⟩],
    ?_, ?_, ?_, by simp [avgSpectrum]⟩
  · rw [List.length_drop, List.length_map, toRows_length]
  · rw [hbdef, bins, pyInt,
      if_pos (div_nonneg hb0 (by positivity : (0 : ℚ) ≤ (channels : ℚ)))]
  · intro i j hi hj
    rw [List.length_drop, List.length_map, toRows_length] at hi
    have hi3 : 3 + i < raw.length / channels := by omega
    have hidx : (3 + i) * channels + j < raw.length := by
      have h1 : (3 + i + 1) * channels ≤ raw.length / channels * channels :=
        Nat.mul_le_mul_right channels (by omega)
      have h2 : raw.length / channels * channels = raw.length :=
        Nat.div_mul_cancel hdvd
      have h3' : (3 + i) * channels + j < (3 + i + 1) * channels := by
        have : (3 + i + 1) * channels = (3 + i) * channels + channels := by
          ring
        omega
      omega
    have hrow : ((toRows raw channels).map
        (List.map (normSample b))).get? (3 + i) =
        some (List.map (normSample b)
          ((raw.drop ((3 + i) * channels)).take channels)) := by
      rw [List.get?_map, toRows_get? raw channels (3 + i) hi3]
      rfl
    have hbridge : ((((toRows raw channels).map
        (List.map (normSample b))).drop 3).getD i []) =
        List.map (normSample b)
          ((raw.drop ((3 + i) * channels)).take channels) := by
      rw [getD_get?_bridge, List.get?_drop, hrow]
      rfl
    rw [hbridge, getD_get?_bridge, List.get?_map, List.get?_take hj,
      List.get?_drop]
    have hsome : raw.get? ((3 + i) * channels + j) =
        some (raw.getD ((3 + i) * channels + j) 0) := by
      rw [getD_get?_bridge]
      obtain ⟨x, hx⟩ : ∃ x, raw.get? ((3 + i) * channels + j) = some x :=
        ⟨raw.get ⟨_, hidx⟩, List.get?_eq_get hidx⟩
      rw [hx]
      rfl
    rw [hsome]
    have hioff : (i + 3) * channels + j = (3 + i) * channels + j := by ring_nf
    rw [hioff]
    have hbne : ¬b = 0 := by
      intro h0
      rw [h0] at hb1
      norm_num at hb1
    simp [normSample, offset, hbne]

/-- Witness for C1 at the spec's 103x4 example: bins = 1, 100 loaded
integrations, 4-value average spectrum. -/
theorem load_spec_witness :
    ∃ w, load (List.replicate 412 (0 : ℚ)) 4 1 4 = some w ∧
      w.length = 100 ∧ bins 1 4 4 = 1 ∧
      (avgSpectrum w 4).length = 4 := by
  obtain ⟨w, h1, h2, _, _, h5⟩ := load_spec (List.replicate 412 (0 : ℚ)) 4 1 4
    (by decide) (by norm_num) (by norm_num) (by norm_num)
    (by norm_num [bins, pyInt])
  refine ⟨w, h1, ?_, by norm_num [bins, pyInt], h5⟩
  rw [h2, List.length_replicate]

/-! ## C7: the SNR normalizer -/

/-- C7: the SNR normalizer computes `(ratio − background)/noise` with
`background` the nan-aware mean of the ratio over unmasked channels and
`noise` the nan-aware standard deviation of the lag-2 finite difference
over unmasked interior channels divided by `sqrt 2`; whenever the noise
estimate is nonzero, every channel whose ratio equals the background
exactly (in particular every channel of an identically-constant ratio)
is sent to zero. -/
theorem snr_spec (s : List (Option ℝ)) (mask : List ℝ) (b ns : ℝ)
    (hb : snrBackground s mask = some b) (hn : snrNoise s mask = some ns)
    (hns : ns ≠ 0) :
    (∀ c v, s.get? c = some (some v) →
      (SNR s mask).get? c = some (some ((v - b) / ns))) ∧
    (∀ c, s.get? c = some (some b) →
      (SNR s mask).get? c = some (some 0)) := by
  have hSNR : SNR s mask = s.map (Option.map (fun v => (v - b) / ns)) := by
    unfold SNR
    rw [hb, hn]
  constructor
  · intro c v hc
    rw [hSNR, List.get?_map, hc]
    rfl
  · intro c hc
    rw [hSNR, List.get?_map, hc]
    simp

/-- Witness for C7: with ratio `[0, 0, 1, 3]` and an all-zero mask the
background is 1 and the noise estimate `1/sqrt 2` is nonzero, so
channel 2 (whose ratio equals the background) is normalized to zero. -/
theorem snr_spec_witness :
    (SNR [some 0, some 0, some 1, some 3] [0, 0, 0, 0]).get? 2 =
      some (some 0) := by
  have hb : snrBackground [some (0 : ℝ), some 0, some 1, some 3]
      [0, 0, 0, 0] = some 1 := by
    norm_num [snrBackground, snrMask, selectZero, nanmeanR, nanvals,
      List.zip, List.zipWith, List.filterMap_cons]
  have hn : snrNoise [some (0 : ℝ), some 0, some 1, some 3]
      [0, 0, 0, 0] = some (1 / Real.sqrt 2) := by
    norm_num [snrNoise, snrDiffs, subNaN, snrMask, selectZero, nanstdR,
      nanmeanR, nanvals, List.zip, List.zipWith, List.filterMap_cons,
      Real.sqrt_one]
  exact (snr_spec [some 0, some 0, some 1, some 3] [0, 0, 0, 0] 1
    (1 / Real.sqrt 2) hb hn (by positivity)).2 2 (by norm_num)

end Virgo
